import Mathlib

/-
Verification of the sigslot signal/slot library (src/sigslot/sigslot.h,
src/sigslot/tasklet.h) against its natural-language specification.

The development is a shallow embedding of the single-threaded instantiation
(thread policy `sigslot::thread::st`, whose lock/unlock are no-ops, so the
lock_block wrappers in the source are identity and are not modelled).

Part 1 models `signal::emit` together with the `std::list` iterator discipline
it relies on: heap connection nodes get explicit identities (`Conn.nid`), the
loop keeps a cursor that is the saved `itNext` iterator (an `Option Nat`:
`none` is the end sentinel), a callback may mutate the registry while the loop
runs, and resuming the loop at a node that a callback has erased is the
use-after-free the real code would commit (`EmitErr.dangling`).

Part 2 models the two-sided bookkeeping between `_signal_base` (a registry,
`m_connected_slots`, an ordered list of connections) and `has_slots` (a
back-reference set, `m_senders`, of signal identities): destruction of a slot
owner, copy construction of a signal and copy construction of a slot owner.

Part 3 models the tasklet promise (`tasklet.h`), including the member shadowing
between `promise_type_base` and `promise_type<R,T>`, and `tasklet::start`.

Part 4 models, from the spec (the implementation is absent from src/), the
awaiter bridge that lets a task await a signal.
-/

namespace SigSlot

/-! ### Part 1: the emit model -/

/-- One heap-allocated `internal::_connection` node of a signal's
`m_connected_slots` list: `nid` is the node identity (the pointer), `dest` the
identity of the `has_slots` target (`m_pobject`), `fn` the identity of the
stored callable (`m_fn`). Connections are immutable once created. -/
structure Conn where
  nid : Nat
  dest : Nat
  fn : Nat
deriving DecidableEq, Repr

/-- A registry mutation a user callback can perform on the signal that is
currently emitting: `signal::connect` (push_back of a fresh node) or
`_signal_base::disconnect` of a target (remove_if over the list). -/
inductive Act where
  | connectAct (dest fn : Nat)
  | disconnectAct (dest : Nat)
  | nop
deriving DecidableEq, Repr

/-- The observable state of one signal during dispatch: `regs` is
`m_connected_slots` in list order, `fresh` the next unused node identity, and
`log` the sequence of callable invocations performed so far, each recording
the connection invoked and the argument tuple passed to it. -/
structure EmitState (α : Type) where
  regs : List Conn
  fresh : Nat
  log : List (Conn × α)
deriving DecidableEq, Repr

/-- `std::list::remove_if([](x){return x->getdest() == d;})` as used by
`_signal_base::disconnect` and `_signal_base::slot_disconnect`. -/
def removeDest : List Conn → Nat → List Conn
  | [], _ => []
  | c :: rest, d => if c.dest = d then removeDest rest d else c :: removeDest rest d

/-- `signal::connect(pclass, fn)`: allocate a fresh `_connection` node and
push_back it onto `m_connected_slots` (the reciprocal `signal_connect` call is
part of the two-sided model of Part 2). There is no further parameter: the
source `connect` takes exactly a target and a callable. -/
def connectOp (s : EmitState α) (d f : Nat) : EmitState α :=
  { s with regs := s.regs ++ [⟨s.fresh, d, f⟩], fresh := s.fresh + 1 }

/-- `_signal_base::disconnect(pclass)` restricted to the registry side:
remove every connection whose target is `d`. -/
def disconnectOp (s : EmitState α) (d : Nat) : EmitState α :=
  { s with regs := removeDest s.regs d }

/-- Effect of one registry mutation requested by a running callback. -/
def applyAct (s : EmitState α) : Act → EmitState α
  | .connectAct d f => connectOp s d f
  | .disconnectAct d => disconnectOp s d
  | .nop => s

/-- Invoking `(*it)->emit(a...)`: the connection's callable runs with the
emitted arguments (recorded in `log`) and then performs whatever registry
mutations its body contains. A callback is modelled as the list of mutations
`prog c.fn a` it performs on this signal when called with argument `a`. -/
def invoke (prog : Nat → α → List Act) (a : α) (s : EmitState α) (c : Conn) : EmitState α :=
  (prog c.fn a).foldl applyAct { s with log := s.log ++ [(c, a)] }

/-- Dereferencing the cursor: the node of `m_connected_slots` whose identity
is `n`, if it is still in the list. -/
def findNode : List Conn → Nat → Option Conn
  | [], _ => none
  | c :: rest, n => if c.nid = n then some c else findNode rest n

/-- `itNext = it; ++itNext`: the identity of the node after node `n`, or
`none` for the end sentinel. -/
def succOf : List Conn → Nat → Option Nat
  | [], _ => none
  | c :: rest, n => if c.nid = n then rest.head?.map Conn.nid else succOf rest n

/-- Failure modes of the dispatch loop: `fuelOut` models non-termination
(callbacks can grow the live list forever), `dangling` models resuming the
loop at a node a callback has erased — the saved `itNext` iterator was
invalidated, which is undefined behaviour in the source. -/
inductive EmitErr where
  | fuelOut
  | dangling
deriving DecidableEq, Repr

/-- The loop body of `signal::emit`: while the cursor is not the end sentinel,
dereference it (undefined behaviour if the node is gone), save the successor
iterator, invoke the connection's callable, and continue at the saved
successor. -/
def emitLoop (prog : Nat → α → List Act) (a : α) (fuel : Nat) (s : EmitState α)
    (cur : Option Nat) : Except EmitErr (EmitState α) :=
  match cur with
  | none => .ok s
  | some n =>
    match fuel with
    | 0 => .error .fuelOut
    | fuel' + 1 =>
      match findNode s.regs n with
      | none => .error .dangling
      | some c => emitLoop prog a fuel' (invoke prog a s c) (succOf s.regs n)

/-- `signal::emit(a...)`: run the loop from `begin()`. -/
def emitRun (prog : Nat → α → List Act) (a : α) (fuel : Nat) (s : EmitState α) :
    Except EmitErr (EmitState α) :=
  emitLoop prog a fuel s (s.regs.head?.map Conn.nid)

/-- The invocation log of a finished emit (empty if the run failed). -/
def logOf : Except EmitErr (EmitState α) → List (Conn × α)
  | .ok s => s.log
  | .error _ => []

/-- `n` successive calls of `signal::emit` with the same argument. -/
def emitN (prog : Nat → α → List Act) (a : α) (fuel : Nat) :
    Nat → EmitState α → Except EmitErr (EmitState α)
  | 0, s => .ok s
  | n + 1, s => (emitRun prog a fuel s).bind (emitN prog a fuel n)

/-! ### Part 2: the two-sided world model

Signals and slot owners are world objects identified by `Nat` keys. A signal's
state is its registry (the ordered `m_connected_slots`); a slot owner's state
is its back-reference set `m_senders` (a `std::set` of signal identities,
modelled as a duplicate-free list with order abstracted). Connection node
identities play no role in these claims, so a registry entry is just the pair
of target identity and callable identity. -/

/-- A registry entry as seen at the world level: the attributes
(`m_pobject`, `m_fn`) of one `_connection`. -/
structure CSlot where
  dest : Nat
  fn : Nat
deriving DecidableEq, Repr

/-- `std::list::remove_if(getdest() == d)` on a world-level registry. -/
def removeDestS : List CSlot → Nat → List CSlot
  | [], _ => []
  | c :: rest, d => if c.dest = d then removeDestS rest d else c :: removeDestS rest d

/-- The connections of a registry that target `d` (in list order), as scanned
by `_signal_base::slot_duplicate`. -/
def keepDest : List CSlot → Nat → List CSlot
  | [], _ => []
  | c :: rest, d => if c.dest = d then c :: keepDest rest d else keepDest rest d

/-- `std::set::insert`: add `x` to the set unless already present. -/
def insertIfAbsent (x : Nat) (l : List Nat) : List Nat :=
  if x ∈ l then l else l ++ [x]

/-- Association-list lookup: the state of the object with key `k` (objects are
heap entities, so the first binding wins; in well-formed worlds keys are
unique). -/
def lookupA {β : Type} : List (Nat × β) → Nat → Option β
  | [], _ => none
  | (k, v) :: rest, q => if k = q then some v else lookupA rest q

/-- Update the object with key `k` in place. -/
def updA {β : Type} : List (Nat × β) → Nat → (β → β) → List (Nat × β)
  | [], _, _ => []
  | (k0, v) :: rest, k, f => (if k0 = k then (k0, f v) else (k0, v)) :: updA rest k f

/-- The world: every live signal's registry and every live slot owner's
back-reference set. -/
structure World where
  sigs : List (Nat × List CSlot)
  tars : List (Nat × List Nat)
deriving DecidableEq, Repr

/-- Registry of signal `k` (empty if no such signal). -/
def lookupSig (w : World) (k : Nat) : List CSlot :=
  (lookupA w.sigs k).getD []

/-- Back-reference set `m_senders` of slot owner `t` (empty if no such owner). -/
def lookupTar (w : World) (t : Nat) : List Nat :=
  (lookupA w.tars t).getD []

/-- `_signal_base::slot_disconnect(pslot)`: signal `k` drops every connection
targeting `t` (and touches nothing else — the caller clears its own set). -/
def slot_disconnect (sigs : List (Nat × List CSlot)) (k t : Nat) :
    List (Nat × List CSlot) :=
  updA sigs k (fun regs => removeDestS regs t)

/-- `has_slots::~has_slots`, which runs `disconnect_all`: iterate the own
back-reference set, instructing each referenced signal to `slot_disconnect`
this owner, and only then erase the own set. -/
def destroyOwner (w : World) (t : Nat) : World :=
  { sigs := (lookupTar w t).foldl (fun acc s => slot_disconnect acc s t) w.sigs,
    tars := updA w.tars t (fun _ => []) }

/-- `_signal_base::_signal_base(const _signal_base&)` plus
`signal(const signal&)` (which adds nothing): for each connection of the
source signal, in list order, call `getdest()->signal_connect(newSignal)`
(a set insert into the target's `m_senders`) and push_back a clone of the
connection node; the new signal object `newId` then enters the world with the
cloned registry. -/
def copySignal (w : World) (src newId : Nat) : World :=
  let st := (lookupSig w src).foldl
    (fun (acc : List (Nat × List Nat) × List CSlot) c =>
      (updA acc.1 c.dest (insertIfAbsent newId), acc.2 ++ [(⟨c.dest, c.fn⟩ : CSlot)]))
    (w.tars, [])
  { sigs := w.sigs ++ [(newId, st.2)], tars := st.1 }

/-- `_signal_base::slot_duplicate(old, new)` on one registry: scan the list
and, for each connection targeting `old`, push_back a duplicate node with the
same callable but target `new`. The scan also reaches the appended duplicates,
which never match because their target is `new` and the copied owner is a new
object (`new ≠ old`), so the net effect is one appended duplicate per original
match, in list order. -/
def dupTargeting (regs : List CSlot) (old newT : Nat) : List CSlot :=
  regs ++ (keepDest regs old).map (fun c => (⟨newT, c.fn⟩ : CSlot))

/-- `has_slots::has_slots(const has_slots&)`: for each signal `s` in the
original owner's `m_senders`, call `s->slot_duplicate(&original, this)` and
insert `s` into the copy's own (initially empty) `m_senders`. -/
def copyOwner (w : World) (old newT : Nat) : World :=
  let st := (lookupTar w old).foldl
    (fun (acc : List (Nat × List CSlot) × List (Nat × List Nat)) s =>
      (updA acc.1 s (fun regs => dupTargeting regs old newT),
       updA acc.2 newT (insertIfAbsent s)))
    (w.sigs, w.tars)
  { sigs := st.1, tars := st.2 }

/-- Assign node identities `i, i+1, ...` to a world-level registry so it can
be dispatched by the Part 1 emit loop. -/
def withNids : Nat → List CSlot → List Conn
  | _, [] => []
  | i, c :: rest => ⟨i, c.dest, c.fn⟩ :: withNids (i + 1) rest

/-! ### Part 3: the tasklet promise and handle (src/sigslot/tasklet.h)

`promise_type<R,T>` inherits from `promise_type_base` and re-declares the
members `name`, `eptr`, `complete` and `exception`, so the derived class holds
two distinct `complete` signals and two distinct `exception` signals. The base
member functions (`final_suspend`, `unhandled_exception`, `get`) act on the
base subobject's members, while the accessors `tasklet::complete()` and
`tasklet::exception()` return `coro.promise().complete` / `.exception`, which
name lookup resolves to the shadowing members of `promise_type<R,T>`. Both
copies appear below. `ε` stands for `std::exception_ptr`, `ν` for the result
type `T`. -/

/-- State of one coroutine promise object, with the base subobject's members
and the shadowing members of `promise_type<R,T>` kept apart. Signals carry no
connections of their own in these claims, so a firing is recorded directly
(a count for `signal<>`, a payload log for `signal<exception_ptr&>`). The
shadowed `name` members and the derived `eptr` (which nothing ever writes) are
omitted as inert. -/
structure Promise (ε ν : Type) where
  baseEptr : Option ε
  baseCompleteCount : Nat
  baseExceptionLog : List ε
  derivedCompleteCount : Nat
  derivedExceptionLog : List ε
  value : ν
deriving DecidableEq, Repr

/-- `promise_type<R,T>::promise_type()`: `value()` default-constructed,
no exception captured, no signal fired yet. -/
def freshPromise {ε ν : Type} (v0 : ν) : Promise ε ν :=
  { baseEptr := none, baseCompleteCount := 0, baseExceptionLog := [],
    derivedCompleteCount := 0, derivedExceptionLog := [], value := v0 }

/-- `promise_type_base::unhandled_exception()`:
`eptr = std::current_exception(); exception(eptr);` — both `eptr` and
`exception` here are the base subobject's members. -/
def unhandledExceptionOp {ε ν : Type} (p : Promise ε ν) (e : ε) : Promise ε ν :=
  { p with baseEptr := some e, baseExceptionLog := p.baseExceptionLog ++ [e] }

/-- `promise_type_base::final_suspend()`: fires `complete()` — the base
subobject's `complete` signal — unconditionally, then suspends. -/
def finalSuspendOp {ε ν : Type} (p : Promise ε ν) : Promise ε ν :=
  { p with baseCompleteCount := p.baseCompleteCount + 1 }

/-- A coroutine body that exits by raising `e`: per the C++ coroutine rules the
frame calls `unhandled_exception()` and then reaches the final suspend point,
so `final_suspend()` still runs. -/
def runFailingBody {ε ν : Type} (p : Promise ε ν) (e : ε) : Promise ε ν :=
  finalSuspendOp (unhandledExceptionOp p e)

/-- `tasklet::get` → `promise_type<R,T>::get`: first
`promise_type_base::get()` (rethrow the base `eptr` if set), then return
`value`. -/
def promiseGet {ε ν : Type} (p : Promise ε ν) : Except ε ν :=
  match p.baseEptr with
  | some e => .error e
  | none => .ok p.value

/-- `tasklet::complete()` returns `coro.promise().complete`, the shadowing
member of `promise_type<R,T>`: the number of firings an observer connected
through this accessor has seen. -/
def taskCompleteCount {ε ν : Type} (p : Promise ε ν) : Nat :=
  p.derivedCompleteCount

/-- `tasklet::exception()` returns `coro.promise().exception`, the shadowing
member of `promise_type<R,T>`: the firings an observer connected through this
accessor has seen. -/
def taskExceptionLog {ε ν : Type} (p : Promise ε ν) : List ε :=
  p.derivedExceptionLog

/-- `internal::tasklet` handle state for `tasklet::start`: `none` is a null
`coro` handle; `some r` is a live coroutine frame that needs `r` more resumes
to reach its final suspend point, so `coro.done()` holds exactly when `r = 0`.
A freshly created task (suspended at `initial_suspend`) whose body contains
`k` interior suspension points is `some (k + 1)`. -/
def startT : Option Nat → Except String (Option Nat)
  | none => .error "No coroutine to start"
  | some r => if r = 0 then .error "Already run" else .ok (some (r - 1))

/-! ### Part 4: the awaiter bridge for signals (modelled from the spec) -/

/-- Modelled from the spec: the await-expression over a `signal` — used by
src/co_example.cc (`co_await tick;`) — has no implementation under src/
(src/sigslot/tasklet.h only defines `operator co_await` for tasklets), so the
waiter set of a signal and its resolution are taken from spec 4.3: an awaiter
registers itself in the signal's waiter set at creation and the task suspends;
on the signal's next emit, all waiters registered at that moment are detached
as a single batch and each is resolved with the emitted payload and resumed
synchronously, in registration order. `waiters` holds the suspended task
identities; `resumed` logs each resumption with the payload it observed. -/
structure WaitState (β : Type) where
  waiters : List Nat
  resumed : List (Nat × β)
deriving DecidableEq, Repr

/-- Modelled from the spec: task `t` awaits the signal — it suspends and its
awaiter joins the waiter set. -/
def awaitSignal {β : Type} (s : WaitState β) (t : Nat) : WaitState β :=
  { s with waiters := s.waiters ++ [t] }

/-- Modelled from the spec: `emit(v)` detaches the whole waiter batch and
resumes each waiter with the payload `v`, in registration order. -/
def emitSignal {β : Type} (s : WaitState β) (v : β) : WaitState β :=
  { waiters := [], resumed := s.resumed ++ s.waiters.map (fun t => (t, v)) }

/-! ### Concrete example states used by counterexamples and witnesses -/

/-- A family of callables that never touch the registry. -/
def noMut : Nat → Nat → List Act := fun _ _ => []

/-- Callable 100 connects a new target mid-emit; every other callable is pure. -/
def prog5 : Nat → Nat → List Act := fun f _ => if f = 100 then [.connectAct 12 102] else []

/-- Two connections; the first one's callable adds a third while the emit runs. -/
def init5 : EmitState Nat := ⟨[⟨1, 10, 100⟩, ⟨2, 11, 101⟩], 3, []⟩

/-- Callable 100 disconnects target 7 (its own owner) mid-emit; every other
callable is pure. -/
def prog8 : Nat → Nat → List Act := fun f _ => if f = 100 then [.disconnectAct 7] else []

/-- Two adjacent connections of the same target 7; the first one's callable
disconnects that target while the emit runs. -/
def init8 : EmitState Nat := ⟨[⟨1, 7, 100⟩, ⟨2, 7, 101⟩], 3, []⟩

/-- The last connection's callable adds a new connection during the emit. -/
def progZ : Nat → Nat → List Act := fun f _ => if f = 100 then [.connectAct 3 4] else []

/-- Two signals; owner 1 has two connections on signal 0 and one on signal 1,
owner 2 has one connection on signal 0. -/
def w2 : World :=
  ⟨[(0, [⟨1, 10⟩, ⟨2, 11⟩]), (1, [⟨1, 12⟩])], [(1, [0, 1]), (2, [0])]⟩

/-- One signal with two connections to owner 1 and one to owner 2. -/
def w9 : World :=
  ⟨[(0, [⟨1, 10⟩, ⟨1, 11⟩, ⟨2, 12⟩])], [(1, [0]), (2, [0])]⟩

/-- Owner 1 holds two connections on signal 0 and one on signal 1; owner 7 is
a freshly constructed copy with an empty back-reference set. -/
def w10 : World :=
  ⟨[(0, [⟨1, 10⟩, ⟨2, 11⟩, ⟨1, 12⟩]), (1, [⟨1, 13⟩])],
   [(1, [0, 1]), (2, [0]), (7, [])]⟩

/-! ### Lemmas about the emit loop -/

theorem findNode_append (pre : List Conn) (c : Conn) (post : List Conn)
    (h : ∀ x ∈ pre, x.nid ≠ c.nid) :
    findNode (pre ++ c :: post) c.nid = some c := by
  induction pre with
  | nil => simp [findNode]
  | cons p pre ih =>
      have hp : p.nid ≠ c.nid := h p (List.mem_cons_self _ _)
      have ih2 := ih (fun x hx => h x (List.mem_cons_of_mem _ hx))
      simpa [findNode, hp] using ih2

theorem succOf_append (pre : List Conn) (c : Conn) (post : List Conn)
    (h : ∀ x ∈ pre, x.nid ≠ c.nid) :
    succOf (pre ++ c :: post) c.nid = post.head?.map Conn.nid := by
  induction pre with
  | nil => simp [succOf]
  | cons p pre ih =>
      have hp : p.nid ≠ c.nid := h p (List.mem_cons_self _ _)
      have ih2 := ih (fun x hx => h x (List.mem_cons_of_mem _ hx))
      simpa [succOf, hp] using ih2

theorem nid_ne_of_nodup (pre : List Conn) (c : Conn) (post : List Conn)
    (h : ((pre ++ c :: post).map Conn.nid).Nodup) :
    ∀ x ∈ pre, x.nid ≠ c.nid := by
  intro x hx heq
  rw [List.map_append] at h
  rcases List.nodup_append.mp h with ⟨_, _, hdisj⟩
  exact hdisj (List.mem_map_of_mem _ hx) (by simp [heq])

theorem emitLoop_end (prog : Nat → α → List Act) (a : α) (fuel : Nat) (s : EmitState α) :
    emitLoop prog a fuel s none = .ok s := by
  simp [emitLoop]

theorem emitLoop_step (prog : Nat → α → List Act) (a : α) (fuel : Nat) (s : EmitState α)
    (n : Nat) (c : Conn) (hc : findNode s.regs n = some c) :
    emitLoop prog a (fuel + 1) s (some n)
      = emitLoop prog a fuel (invoke prog a s c) (succOf s.regs n) := by
  simp [emitLoop, hc]

theorem invoke_noacts (prog : Nat → α → List Act) (a : α) (s : EmitState α) (c : Conn)
    (h : prog c.fn a = []) :
    invoke prog a s c = { s with log := s.log ++ [(c, a)] } := by
  simp [invoke, h]

theorem emitLoop_walk (prog : Nat → α → List Act) (a : α) :
    ∀ (mid : List Conn) (f2 : Nat) (pre rest : List Conn) (s : EmitState α),
      s.regs = pre ++ mid ++ rest →
      (s.regs.map Conn.nid).Nodup →
      (∀ c ∈ mid, prog c.fn a = []) →
      emitLoop prog a (mid.length + f2) s ((mid ++ rest).head?.map Conn.nid)
        = emitLoop prog a f2 { s with log := s.log ++ mid.map (fun c => (c, a)) }
            (rest.head?.map Conn.nid) := by
  intro mid
  induction mid with
  | nil =>
      intro f2 pre rest s _ _ _
      simp
  | cons c mid ih =>
      intro f2 pre rest s hr hnd hp
      have hregs : s.regs = pre ++ c :: (mid ++ rest) := by
        rw [hr, List.append_assoc, List.cons_append]
      have hpre : ∀ x ∈ pre, x.nid ≠ c.nid := by
        apply nid_ne_of_nodup pre c (mid ++ rest)
        rw [← hregs]; exact hnd
      have hfind : findNode s.regs c.nid = some c := by
        rw [hregs]; exact findNode_append _ _ _ hpre
      have hsucc : succOf s.regs c.nid = (mid ++ rest).head?.map Conn.nid := by
        rw [hregs]; exact succOf_append _ _ _ hpre
      simp only [List.cons_append, List.head?_cons, Option.map_some', List.length_cons]
      rw [show mid.length + 1 + f2 = (mid.length + f2) + 1 from by omega]
      rw [emitLoop_step prog a (mid.length + f2) s c.nid c hfind]
      rw [hsucc, invoke_noacts prog a s c (hp c (List.mem_cons_self _ _))]
      rw [ih f2 (pre ++ [c]) rest _
        (by simp [hregs, List.append_assoc])
        (by simpa using hnd)
        (fun x hx => hp x (List.mem_cons_of_mem _ hx))]
      have hlog : (s.log ++ [(c, a)]) ++ mid.map (fun c => (c, a))
          = s.log ++ (c :: mid).map (fun c => (c, a)) := by
        simp
      simp only [hlog]

theorem emitRun_noacts (prog : Nat → α → List Act) (a : α) (f2 : Nat) (s : EmitState α)
    (hp : ∀ c ∈ s.regs, prog c.fn a = [])
    (hnd : (s.regs.map Conn.nid).Nodup) :
    emitRun prog a (s.regs.length + f2) s
      = .ok { s with log := s.log ++ s.regs.map (fun c => (c, a)) } := by
  have h := emitLoop_walk prog a s.regs f2 [] [] s (by simp) hnd hp
  simpa [emitRun, emitLoop_end] using h

theorem removeDest_sublist (l : List Conn) (d : Nat) : List.Sublist (removeDest l d) l := by
  induction l with
  | nil => simp [removeDest]
  | cons c rest ih =>
      by_cases h : c.dest = d
      · simpa [removeDest, h] using ih.cons c
      · simpa [removeDest, h] using ih.cons₂ c

theorem mem_removeDest {l : List Conn} {d : Nat} {x : Conn} :
    x ∈ removeDest l d ↔ x ∈ l ∧ x.dest ≠ d := by
  induction l with
  | nil => simp [removeDest]
  | cons c rest ih =>
      by_cases h : c.dest = d
      · simp only [removeDest, if_pos h, ih, List.mem_cons]
        constructor
        · rintro ⟨hm, hd⟩; exact ⟨Or.inr hm, hd⟩
        · rintro ⟨hm, hd⟩
          rcases hm with rfl | hm
          · exact absurd h hd
          · exact ⟨hm, hd⟩
      · simp only [removeDest, if_neg h, List.mem_cons, ih]
        constructor
        · rintro (rfl | ⟨hm, hd⟩)
          · exact ⟨Or.inl rfl, h⟩
          · exact ⟨Or.inr hm, hd⟩
        · rintro ⟨rfl | hm, hd⟩
          · exact Or.inl rfl
          · exact Or.inr ⟨hm, hd⟩

theorem emitN_singleton (prog : Nat → α → List Act) (a : α) (c : Conn) (fr fuel : Nat)
    (hp : ∀ g x, prog g x = []) (hfuel : 1 ≤ fuel) :
    ∀ (n : Nat) (lg : List (Conn × α)),
      emitN prog a fuel n ⟨[c], fr, lg⟩ = .ok ⟨[c], fr, lg ++ List.replicate n (c, a)⟩ := by
  intro n
  induction n with
  | zero => intro lg; simp [emitN]
  | succ n ih =>
      intro lg
      have hrun : emitRun prog a fuel ⟨[c], fr, lg⟩ = .ok ⟨[c], fr, lg ++ [(c, a)]⟩ := by
        obtain ⟨f2, rfl⟩ : ∃ f2, fuel = ([c] : List Conn).length + f2 :=
          ⟨fuel - 1, by simp; omega⟩
        have h := emitRun_noacts prog a f2 ⟨[c], fr, lg⟩ (fun c' _ => hp _ _) (by simp)
        simpa using h
      simp [emitN, hrun, Except.bind, ih, List.replicate_succ]

/-! ### Claims C1, C4, C5, C8: dispatch behaviour of signal::emit -/

/-- Claim C1: for every signal with N registered connections (distinct nodes)
and every argument tuple `a`, `emit(a)` invokes the callable of every
connection exactly once with `a`, in registration order — proved for runs in
which no callback mutates the emitting signal's own registry, so that every
connection is still connected at its delivery time; the reentrant-mutation
cases are the subject of C5 and C8. -/
theorem emit_delivers_in_order (prog : Nat → α → List Act) (a : α) (f2 : Nat)
    (s : EmitState α)
    (hp : ∀ c ∈ s.regs, prog c.fn a = [])
    (hnd : (s.regs.map Conn.nid).Nodup) :
    emitRun prog a (s.regs.length + f2) s
      = .ok { s with log := s.log ++ s.regs.map (fun c => (c, a)) } :=
  emitRun_noacts prog a f2 s hp hnd

/-- Witness for C1: two connections, one emit, both invoked in order with the
argument 5. -/
theorem emit_delivers_in_order_witness :
    emitRun noMut 5 2 ⟨[⟨0, 1, 10⟩, ⟨1, 2, 11⟩], 2, []⟩
      = .ok ⟨[⟨0, 1, 10⟩, ⟨1, 2, 11⟩], 2, [(⟨0, 1, 10⟩, 5), (⟨1, 2, 11⟩, 5)]⟩ :=
  emit_delivers_in_order noMut 5 0 ⟨[⟨0, 1, 10⟩, ⟨1, 2, 11⟩], 2, []⟩ (by decide) (by decide)

/-- Claim C4 counterexample: the source `signal::connect` takes exactly a
target and a callable — there is no one-shot flag — and a connection it
registers is invoked again by a second emit and is still in the registry
afterwards, so no connection ever has fire-exactly-once-then-vanish
behaviour. -/
theorem connect_one_shot_absent_cex :
    (emitRun noMut 0 3 (connectOp ⟨[], 0, []⟩ 5 7)).bind (emitRun noMut 0 3)
      = .ok ⟨[⟨0, 5, 7⟩], 1, [(⟨0, 5, 7⟩, 0), (⟨0, 5, 7⟩, 0)]⟩ := by rfl

/-- Claim C4 (amended): `connect` accepts no one-shot flag; a registered
connection is invoked once per emit on every one of `n` subsequent emits and
afterwards is still present in the registry (it is never pruned). -/
theorem connections_persist_across_emits (prog : Nat → α → List Act) (a : α)
    (d f fr n fuel : Nat) (hp : ∀ g x, prog g x = []) (hfuel : 1 ≤ fuel) :
    emitN prog a fuel n (connectOp ⟨[], fr, []⟩ d f)
      = .ok ⟨[⟨fr, d, f⟩], fr + 1, List.replicate n (⟨fr, d, f⟩, a)⟩ := by
  have h := emitN_singleton prog a ⟨fr, d, f⟩ (fr + 1) fuel hp hfuel n []
  simpa [connectOp] using h

/-- Witness for the amended C4: one connection, two emits, two invocations,
connection still registered. -/
theorem connections_persist_across_emits_witness :
    emitN noMut 0 1 2 (connectOp ⟨[], 0, []⟩ 5 7)
      = .ok ⟨[⟨0, 5, 7⟩], 1, [(⟨0, 5, 7⟩, 0), (⟨0, 5, 7⟩, 0)]⟩ :=
  connections_persist_across_emits noMut 0 5 7 0 2 1 (fun _ _ => rfl) (by decide)

/-- Claim C5 counterexample: with two connections, the first connection's
callback adds a third connection during the emit, and that new connection
(node 3, absent from the starting registry) is invoked in the very same emit
pass — dispatch is not snapshot-at-start. -/
theorem mid_emit_connect_delivered_same_pass_cex :
    ((⟨3, 12, 102⟩ : Conn), 0) ∈ logOf (emitRun prog5 0 5 init5)
    ∧ (⟨3, 12, 102⟩ : Conn) ∉ init5.regs := by decide

/-- Claim C5 (amended): `emit` iterates the live list rather than a snapshot:
a connection appended during the pass is delivered in the same pass when the
loop has not yet reached the end of the list (the counterexample), and is not
delivered only when it is appended by the callback of the last connection,
because the saved next iterator is already the end sentinel. Stated here for
the last-connection case: the pass delivers exactly the original registry and
leaves the new connection appended, undelivered. -/
theorem last_callback_connect_not_delivered (prog : Nat → α → List Act) (a : α)
    (s : EmitState α) (init : List Conn) (z : Conn) (d f f2 : Nat)
    (hregs : s.regs = init ++ [z])
    (hlog : s.log = [])
    (hnd : (s.regs.map Conn.nid).Nodup)
    (hfresh : s.fresh ∉ s.regs.map Conn.nid)
    (hpure : ∀ c ∈ init, prog c.fn a = [])
    (hz : prog z.fn a = [.connectAct d f]) :
    emitRun prog a (init.length + (f2 + 1)) s
      = .ok { regs := s.regs ++ [⟨s.fresh, d, f⟩], fresh := s.fresh + 1,
              log := s.regs.map (fun c => (c, a)) }
    ∧ ∀ x : α, ((⟨s.fresh, d, f⟩ : Conn), x) ∉ s.regs.map (fun c => (c, a)) := by
  constructor
  · have hpre : ∀ x ∈ init, x.nid ≠ z.nid := by
      apply nid_ne_of_nodup init z []
      rw [← hregs]; exact hnd
    have hwalk := emitLoop_walk prog a init (f2 + 1) [] [z] s (by simpa using hregs) hnd hpure
    have hfind : findNode s.regs z.nid = some z := by
      rw [hregs]; exact findNode_append _ _ _ hpre
    have hsucc : succOf s.regs z.nid = none := by
      rw [hregs]
      simpa using succOf_append init z [] hpre
    have hstep := emitLoop_step prog a f2 { s with log := s.log ++ init.map (fun c => (c, a)) }
        z.nid z (by simpa using hfind)
    rw [hsucc] at hstep
    have hinv : invoke prog a { s with log := s.log ++ init.map (fun c => (c, a)) } z
        = { regs := s.regs ++ [⟨s.fresh, d, f⟩], fresh := s.fresh + 1,
            log := (s.log ++ init.map (fun c => (c, a))) ++ [(z, a)] } := by
      simp [invoke, hz, applyAct, connectOp]
    have hcur : s.regs.head?.map Conn.nid = ((init ++ [z]).head?).map Conn.nid := by
      rw [hregs]
    rw [emitRun, hcur, hwalk]
    simp only [List.head?_cons, Option.map_some']
    rw [hstep, hinv, emitLoop_end]
    rw [hregs, hlog]
    simp
  · intro x hx
    rcases List.mem_map.mp hx with ⟨c, hc, hpair⟩
    have hnid : c.nid = s.fresh := by
      have := congrArg (fun p => (Prod.fst p).nid) hpair
      simpa using this
    exact hfresh (hnid ▸ List.mem_map_of_mem Conn.nid hc)

/-- Witness for the amended C5: the last (second) connection's callable adds a
new connection; the pass delivers only the two original connections and
leaves the new node 5 appended, undelivered. -/
theorem last_callback_connect_not_delivered_witness :
    emitRun progZ 0 2 (⟨[⟨0, 1, 10⟩, ⟨1, 2, 100⟩], 5, []⟩ : EmitState Nat)
      = .ok ⟨[⟨0, 1, 10⟩, ⟨1, 2, 100⟩, ⟨5, 3, 4⟩], 6, [(⟨0, 1, 10⟩, 0), (⟨1, 2, 100⟩, 0)]⟩
    ∧ ∀ x : Nat, ((⟨5, 3, 4⟩ : Conn), x)
        ∉ ([(⟨0, 1, 10⟩, 0), (⟨1, 2, 100⟩, 0)] : List (Conn × Nat)) :=
  last_callback_connect_not_delivered progZ 0 ⟨[⟨0, 1, 10⟩, ⟨1, 2, 100⟩], 5, []⟩
    [⟨0, 1, 10⟩] ⟨1, 2, 100⟩ 3 4 0
    (by decide) (by decide) (by decide) (by decide) (by decide) (by decide)

/-- Claim C8 counterexample: two adjacent connections of the same target;
the first one's callback disconnects that target during the emit, which
erases the node the loop's saved next iterator points at — the source would
dereference a deleted node (undefined behaviour), so delivery is corrupted
rather than proceeding without error. -/
theorem reentrant_disconnect_dangling_cex :
    emitRun prog8 0 5 init8 = .error .dangling := by rfl

/-- Claim C8 (amended): if a callback disconnects its own target during emit,
no further connection of that target is invoked in the same pass and delivery
to the remaining targets proceeds correctly, provided the connection at the
saved next position does not itself belong to the disconnected target
(otherwise the saved iterator dangles — the counterexample). -/
theorem reentrant_disconnect_safe_when_next_differs (prog : Nat → α → List Act) (a : α)
    (s : EmitState α) (c : Conn) (rest : List Conn) (f2 : Nat)
    (hregs : s.regs = c :: rest)
    (hnd : (s.regs.map Conn.nid).Nodup)
    (hc : prog c.fn a = [.disconnectAct c.dest])
    (hrest : ∀ x ∈ rest, prog x.fn a = [])
    (hnext : ∀ x, rest.head? = some x → x.dest ≠ c.dest) :
    emitRun prog a ((removeDest rest c.dest).length + f2 + 1) s
      = .ok { regs := removeDest rest c.dest, fresh := s.fresh,
              log := s.log ++ (c, a) :: (removeDest rest c.dest).map (fun x => (x, a)) } := by
  have hfind : findNode s.regs c.nid = some c := by
    rw [hregs]; simp [findNode]
  have hcur : s.regs.head?.map Conn.nid = some c.nid := by rw [hregs]; rfl
  have hinv : invoke prog a s c
      = { regs := removeDest rest c.dest, fresh := s.fresh, log := s.log ++ [(c, a)] } := by
    simp [invoke, hc, applyAct, disconnectOp, hregs, removeDest]
  have hsucc : succOf s.regs c.nid = rest.head?.map Conn.nid := by
    rw [hregs]; simp [succOf]
  rw [emitRun, hcur, emitLoop_step prog a _ s c.nid c hfind, hsucc, hinv]
  have hndrest : (rest.map Conn.nid).Nodup := by
    rw [hregs] at hnd
    exact (List.nodup_cons.mp (by simpa using hnd)).2
  have hndmid : ((removeDest rest c.dest).map Conn.nid).Nodup :=
    List.Nodup.sublist ((removeDest_sublist rest c.dest).map Conn.nid) hndrest
  have hheads : (removeDest rest c.dest).head? = rest.head? := by
    cases hre : rest with
    | nil => simp [removeDest]
    | cons x rest2 =>
        have hx : x.dest ≠ c.dest := hnext x (by rw [hre]; rfl)
        simp [removeDest, hx]
  rw [← hheads]
  have hwalk := emitLoop_walk prog a (removeDest rest c.dest) f2 [] []
      { regs := removeDest rest c.dest, fresh := s.fresh, log := s.log ++ [(c, a)] }
      (by simp)
      (by simpa using hndmid)
      (fun y hy => hrest y (mem_removeDest.mp hy).1)
  rw [List.append_nil] at hwalk
  rw [hwalk]
  simp only [List.head?_nil, Option.map_none']
  rw [emitLoop_end]
  simp

/-- Witness for the amended C8: target 7 owns the first and third connection;
the first one's callback disconnects target 7, the third connection is
removed unseen, and the second connection (target 8, the saved next node) is
still delivered. -/
theorem reentrant_disconnect_safe_when_next_differs_witness :
    emitRun prog8 0 5 (⟨[⟨1, 7, 100⟩, ⟨2, 8, 101⟩, ⟨3, 7, 102⟩], 9, []⟩ : EmitState Nat)
      = .ok ⟨[⟨2, 8, 101⟩], 9, [(⟨1, 7, 100⟩, 0), (⟨2, 8, 101⟩, 0)]⟩ :=
  reentrant_disconnect_safe_when_next_differs prog8 0
    ⟨[⟨1, 7, 100⟩, ⟨2, 8, 101⟩, ⟨3, 7, 102⟩], 9, []⟩ ⟨1, 7, 100⟩
    [⟨2, 8, 101⟩, ⟨3, 7, 102⟩] 3
    (by decide) (by decide) (by decide) (by decide)
    (by intro x hx; cases hx; decide)

/-! ### Lemmas about the world model -/

theorem removeDestS_idem (l : List CSlot) (d : Nat) :
    removeDestS (removeDestS l d) d = removeDestS l d := by
  induction l with
  | nil => simp [removeDestS]
  | cons c rest ih =>
      by_cases h : c.dest = d
      · simp [removeDestS, h, ih]
      · simp [removeDestS, h, ih]

theorem mem_removeDestS {l : List CSlot} {d : Nat} {x : CSlot} :
    x ∈ removeDestS l d ↔ x ∈ l ∧ x.dest ≠ d := by
  induction l with
  | nil => simp [removeDestS]
  | cons c rest ih =>
      by_cases h : c.dest = d
      · simp only [removeDestS, if_pos h, ih, List.mem_cons]
        constructor
        · rintro ⟨hm, hd⟩; exact ⟨Or.inr hm, hd⟩
        · rintro ⟨hm, hd⟩
          rcases hm with rfl | hm
          · exact absurd h hd
          · exact ⟨hm, hd⟩
      · simp only [removeDestS, if_neg h, List.mem_cons, ih]
        constructor
        · rintro (rfl | ⟨hm, hd⟩)
          · exact ⟨Or.inl rfl, h⟩
          · exact ⟨Or.inr hm, hd⟩
        · rintro ⟨rfl | hm, hd⟩
          · exact Or.inl rfl
          · exact Or.inr ⟨hm, hd⟩

theorem removeDestS_eq_self {l : List CSlot} {d : Nat} (h : ∀ x ∈ l, x.dest ≠ d) :
    removeDestS l d = l := by
  induction l with
  | nil => simp [removeDestS]
  | cons c rest ih =>
      have hc : c.dest ≠ d := h c (List.mem_cons_self _ _)
      simp [removeDestS, hc, ih (fun x hx => h x (List.mem_cons_of_mem _ hx))]

theorem lookupA_mem {β : Type} :
    ∀ (l : List (Nat × β)) (k : Nat) (v : β), lookupA l k = some v → (k, v) ∈ l := by
  intro l
  induction l with
  | nil => intro k v h; simp [lookupA] at h
  | cons p rest ih =>
      intro k v h
      rcases p with ⟨k0, v0⟩
      by_cases hk : k0 = k
      · subst hk
        simp [lookupA] at h
        subst h
        exact List.mem_cons_self _ _
      · rw [lookupA, if_neg hk] at h
        exact List.mem_cons_of_mem _ (ih _ _ h)

theorem lookupA_updA_eq {β : Type} (l : List (Nat × β)) (k : Nat) (f : β → β) :
    lookupA (updA l k f) k = (lookupA l k).map f := by
  induction l with
  | nil => rfl
  | cons p rest ih =>
      rcases p with ⟨k0, v0⟩
      simp only [updA]
      by_cases hk : k0 = k
      · rw [if_pos hk]
        simp only [lookupA]
        rw [if_pos hk, if_pos hk]
        rfl
      · rw [if_neg hk]
        simp only [lookupA]
        rw [if_neg hk, if_neg hk]
        exact ih

theorem lookupA_updA_ne {β : Type} (l : List (Nat × β)) (k q : Nat) (f : β → β)
    (h : q ≠ k) :
    lookupA (updA l k f) q = lookupA l q := by
  induction l with
  | nil => rfl
  | cons p rest ih =>
      rcases p with ⟨k0, v0⟩
      simp only [updA]
      by_cases hk : k0 = k
      · rw [if_pos hk]
        have hq : ¬ k0 = q := by rw [hk]; exact fun he => h he.symm
        simp only [lookupA]
        rw [if_neg hq, if_neg hq]
        exact ih
      · rw [if_neg hk]
        by_cases hq : k0 = q
        · simp only [lookupA]
          rw [if_pos hq, if_pos hq]
        · simp only [lookupA]
          rw [if_neg hq, if_neg hq]
          exact ih

theorem lookupA_append_none {β : Type} (l1 l2 : List (Nat × β)) (q : Nat)
    (h : lookupA l1 q = none) :
    lookupA (l1 ++ l2) q = lookupA l2 q := by
  induction l1 with
  | nil => simp
  | cons p rest ih =>
      rcases p with ⟨k0, v0⟩
      by_cases hk : k0 = q
      · rw [lookupA, if_pos hk] at h; cases h
      · rw [lookupA, if_neg hk] at h
        simpa [lookupA, hk] using ih h

theorem lookupA_append_some {β : Type} (l1 l2 : List (Nat × β)) (q : Nat) (v : β)
    (h : lookupA l1 q = some v) :
    lookupA (l1 ++ l2) q = some v := by
  induction l1 with
  | nil => simp [lookupA] at h
  | cons p rest ih =>
      rcases p with ⟨k0, v0⟩
      by_cases hk : k0 = q
      · rw [lookupA, if_pos hk] at h
        simpa [lookupA, hk] using h
      · rw [lookupA, if_neg hk] at h
        simpa [lookupA, hk] using ih h

theorem foldl_updA_idem {β : Type} (F : β → β) (hF : ∀ b, F (F b) = F b) :
    ∀ (ks : List Nat) (l : List (Nat × β)) (q : Nat),
      lookupA (ks.foldl (fun acc k => updA acc k F) l) q
        = if q ∈ ks then (lookupA l q).map F else lookupA l q := by
  intro ks
  induction ks with
  | nil => intro l q; simp
  | cons k0 ks ih =>
      intro l q
      simp only [List.foldl_cons]
      rw [ih]
      by_cases hq : q = k0
      · subst hq
        by_cases hqs : q ∈ ks
        · rw [if_pos hqs, if_pos (List.mem_cons_self _ _), lookupA_updA_eq]
          cases lookupA l q <;> simp [hF]
        · rw [if_neg hqs, if_pos (List.mem_cons_self _ _), lookupA_updA_eq]
      · rw [lookupA_updA_ne _ _ _ _ hq]
        by_cases hqs : q ∈ ks
        · rw [if_pos hqs, if_pos (List.mem_cons_of_mem _ hqs)]
        · rw [if_neg hqs, if_neg (by simp [hq, hqs])]

theorem foldl_updA_nodup {β : Type} (F : β → β) :
    ∀ (ks : List Nat), ks.Nodup → ∀ (l : List (Nat × β)) (q : Nat),
      lookupA (ks.foldl (fun acc k => updA acc k F) l) q
        = if q ∈ ks then (lookupA l q).map F else lookupA l q := by
  intro ks
  induction ks with
  | nil => intro _ l q; simp
  | cons k0 ks ih =>
      intro hnd l q
      rcases List.nodup_cons.mp hnd with ⟨hk0, hnd2⟩
      simp only [List.foldl_cons]
      rw [ih hnd2]
      by_cases hq : q = k0
      · subst hq
        rw [if_neg (fun h => hk0 h), if_pos (List.mem_cons_self _ _), lookupA_updA_eq]
      · rw [lookupA_updA_ne _ _ _ _ hq]
        by_cases hqs : q ∈ ks
        · rw [if_pos hqs, if_pos (List.mem_cons_of_mem _ hqs)]
        · rw [if_neg hqs, if_neg (by simp [hq, hqs])]

theorem foldl_updA_fixedkey {β X : Type} (f : β → X → β) (k : Nat) :
    ∀ (l : List X) (t0 : List (Nat × β)) (q : Nat),
      lookupA (l.foldl (fun acc x => updA acc k (fun b => f b x)) t0) q
        = if q = k then (lookupA t0 k).map (fun b => l.foldl f b) else lookupA t0 q := by
  intro l
  induction l with
  | nil =>
      intro t0 q
      simp only [List.foldl_nil]
      by_cases hq : q = k
      · subst hq
        rw [if_pos rfl]
        cases lookupA t0 q <;> rfl
      · rw [if_neg hq]
  | cons x l ih =>
      intro t0 q
      simp only [List.foldl_cons]
      rw [ih]
      by_cases hq : q = k
      · subst hq
        rw [if_pos rfl, if_pos rfl, lookupA_updA_eq]
        cases lookupA t0 q <;> simp
      · rw [if_neg hq, if_neg hq, lookupA_updA_ne _ _ _ _ hq]

theorem foldl_pair {A B X : Type} (f : A → X → A) (g : B → X → B) :
    ∀ (l : List X) (a : A) (b : B),
      l.foldl (fun p x => (f p.1 x, g p.2 x)) (a, b) = (l.foldl f a, l.foldl g b) := by
  intro l
  induction l with
  | nil => intro a b; rfl
  | cons x l ih => intro a b; simp only [List.foldl_cons]; exact ih _ _

theorem foldl_append_build : ∀ (l init : List CSlot),
    l.foldl (fun r c => r ++ [(⟨c.dest, c.fn⟩ : CSlot)]) init = init ++ l := by
  intro l
  induction l with
  | nil => intro init; simp
  | cons c l ih =>
      intro init
      simp only [List.foldl_cons]
      rw [ih]
      simp

theorem insertIfAbsent_idem (x : Nat) (l : List Nat) :
    insertIfAbsent x (insertIfAbsent x l) = insertIfAbsent x l := by
  by_cases h : x ∈ l
  · simp [insertIfAbsent, h]
  · simp [insertIfAbsent, h]

theorem insertIfAbsent_of_notMem (x : Nat) (l : List Nat) (h : x ∉ l) :
    insertIfAbsent x l = l ++ [x] := by
  simp [insertIfAbsent, h]

theorem foldl_insertIfAbsent :
    ∀ (ss init : List Nat), ss.Nodup → (∀ s ∈ ss, s ∉ init) →
      ss.foldl (fun acc s => insertIfAbsent s acc) init = init ++ ss := by
  intro ss
  induction ss with
  | nil => intro init _ _; simp
  | cons s ss ih =>
      intro init hnd hdis
      rcases List.nodup_cons.mp hnd with ⟨hs, hnd2⟩
      simp only [List.foldl_cons]
      rw [insertIfAbsent_of_notMem s init (hdis s (List.mem_cons_self _ _))]
      rw [ih (init ++ [s]) hnd2 ?hfresh]
      · simp
      case hfresh =>
        intro x hx
        simp only [List.mem_append, List.mem_singleton]
        rintro (hmem | rfl)
        · exact hdis x (List.mem_cons_of_mem _ hx) hmem
        · exact hs hx

theorem mem_withNids :
    ∀ (l : List CSlot) (i : Nat) (x : Conn),
      x ∈ withNids i l → ∃ c ∈ l, x.dest = c.dest ∧ x.fn = c.fn := by
  intro l
  induction l with
  | nil => intro i x hx; simp [withNids] at hx
  | cons c rest ih =>
      intro i x hx
      rcases List.mem_cons.mp hx with rfl | hx
      · exact ⟨c, List.mem_cons_self _ _, rfl, rfl⟩
      · rcases ih (i + 1) x hx with ⟨c2, hc2, hd, hf⟩
        exact ⟨c2, List.mem_cons_of_mem _ hc2, hd, hf⟩

theorem withNids_nid_lower :
    ∀ (l : List CSlot) (i : Nat) (x : Conn), x ∈ withNids i l → i ≤ x.nid := by
  intro l
  induction l with
  | nil => intro i x hx; simp [withNids] at hx
  | cons c rest ih =>
      intro i x hx
      rcases List.mem_cons.mp hx with rfl | hx
      · exact Nat.le_refl _
      · exact Nat.le_of_succ_le (ih (i + 1) x hx)

theorem withNids_nodup : ∀ (l : List CSlot) (i : Nat),
    ((withNids i l).map Conn.nid).Nodup := by
  intro l
  induction l with
  | nil => intro i; simp [withNids]
  | cons c rest ih =>
      intro i
      rw [withNids, List.map_cons, List.nodup_cons]
      refine ⟨?_, ih (i + 1)⟩
      intro hmem
      rcases List.mem_map.mp hmem with ⟨x, hx, hnid⟩
      have hlow := withNids_nid_lower rest (i + 1) x hx
      have hni : x.nid = i := hnid
      omega

theorem withNids_length : ∀ (l : List CSlot) (i : Nat), (withNids i l).length = l.length := by
  intro l
  induction l with
  | nil => intro i; rfl
  | cons c rest ih => intro i; simp [withNids, ih]

/-! ### Claims C2, C9, C10: lifecycle bookkeeping between signals and owners -/

/-- Claim C2: destroying a slot owner `t` first instructs every signal in its
back-reference set to drop the connections targeting `t` — so, under the
reciprocal-registration invariant (every signal holding a connection to `t`
is in `t`'s back-reference set), every signal's registry afterwards equals the
old registry with exactly the connections to `t` removed — then clears `t`'s
own back-reference set; and any subsequent emit on any signal (with
non-mutating callbacks) invokes no callable targeting `t`. -/
theorem owner_destroy_removes_connections (w : World) (t : Nat)
    (hinv : ∀ p ∈ w.sigs, p.1 ∉ lookupTar w t → ∀ c ∈ p.2, c.dest ≠ t) :
    (∀ k, lookupA (destroyOwner w t).sigs k
        = (lookupA w.sigs k).map (fun regs => removeDestS regs t))
    ∧ lookupTar (destroyOwner w t) t = []
    ∧ (∀ k (a f2 : Nat),
        ∀ pr ∈ logOf (emitRun (fun _ _ => ([] : List Act)) a
            ((withNids 0 (lookupSig (destroyOwner w t) k)).length + f2)
            ⟨withNids 0 (lookupSig (destroyOwner w t) k), 0, []⟩),
          pr.1.dest ≠ t) := by
  have hsig : ∀ k, lookupA (destroyOwner w t).sigs k
      = (lookupA w.sigs k).map (fun regs => removeDestS regs t) := by
    intro k
    show lookupA ((lookupTar w t).foldl (fun acc s => slot_disconnect acc s t) w.sigs) k = _
    simp only [slot_disconnect]
    rw [foldl_updA_idem (fun regs => removeDestS regs t) (fun regs => removeDestS_idem regs t)]
    by_cases hk : k ∈ lookupTar w t
    · rw [if_pos hk]
    · rw [if_neg hk]
      cases hlk : lookupA w.sigs k with
      | none => simp
      | some regs =>
          have hmem := lookupA_mem w.sigs k regs hlk
          have hno : ∀ c ∈ regs, c.dest ≠ t := hinv (k, regs) hmem hk
          simp [removeDestS_eq_self hno]
  refine ⟨hsig, ?_, ?_⟩
  · show ((lookupA (updA w.tars t (fun _ => [])) t).getD []) = []
    rw [lookupA_updA_eq]
    cases lookupA w.tars t <;> rfl
  · intro k a f2 pr hpr
    have hrun := emitRun_noacts (fun _ _ => ([] : List Act)) a f2
        ⟨withNids 0 (lookupSig (destroyOwner w t) k), 0, []⟩
        (fun c _ => rfl) (withNids_nodup _ 0)
    rw [hrun] at hpr
    simp only [logOf, List.nil_append] at hpr
    rcases List.mem_map.mp hpr with ⟨x, hx, hpair⟩
    rcases mem_withNids _ _ x hx with ⟨c, hc, hd, _⟩
    have hcd : c.dest ≠ t := by
      have hk := hsig k
      unfold lookupSig at hc
      rw [hk] at hc
      cases hlk : lookupA w.sigs k with
      | none => rw [hlk] at hc; simp at hc
      | some regs =>
          rw [hlk] at hc
          simp only [Option.map_some', Option.getD_some] at hc
          exact (mem_removeDestS.mp hc).2
    have hprx : pr.1 = x := by rw [← hpair]
    rw [hprx, hd]
    exact hcd

/-- Witness for C2: owner 1 with three connections across two signals is
destroyed; signal 0 keeps only owner 2's connection, owner 1's back-reference
set is cleared, and a subsequent emit on signal 0 delivers nothing to
owner 1. -/
theorem owner_destroy_removes_connections_witness :
    lookupA (destroyOwner w2 1).sigs 0 = some [⟨2, 11⟩]
    ∧ lookupTar (destroyOwner w2 1) 1 = []
    ∧ ∀ pr ∈ logOf (emitRun (fun _ _ => ([] : List Act)) 0
          ((withNids 0 (lookupSig (destroyOwner w2 1) 0)).length + 0)
          ⟨withNids 0 (lookupSig (destroyOwner w2 1) 0), 0, []⟩),
        pr.1.dest ≠ 1 :=
  ⟨(owner_destroy_removes_connections w2 1 (by decide)).1 0,
   (owner_destroy_removes_connections w2 1 (by decide)).2.1,
   (owner_destroy_removes_connections w2 1 (by decide)).2.2 0 0 0⟩

/-- Claim C9: copy-constructing a signal with C connections yields a new
signal holding the same C connections (same targets, same callables, same
order), leaves every existing signal untouched, and makes each distinct
target's back-reference set grow by exactly one entry — the new signal —
no matter how many connections that target has; targets without a connection
on the source signal are unaffected. -/
theorem signal_copy_clones_and_backrefs (w : World) (src newId : Nat)
    (hfreshS : lookupA w.sigs newId = none)
    (hfreshT : ∀ p ∈ w.tars, newId ∉ p.2) :
    lookupSig (copySignal w src newId) newId = lookupSig w src
    ∧ (∀ k, k ≠ newId → lookupA (copySignal w src newId).sigs k = lookupA w.sigs k)
    ∧ (∀ t, t ∈ (lookupSig w src).map CSlot.dest →
        (lookupA w.tars t).isSome = true →
        lookupTar (copySignal w src newId) t = lookupTar w t ++ [newId])
    ∧ (∀ t, t ∉ (lookupSig w src).map CSlot.dest →
        lookupA (copySignal w src newId).tars t = lookupA w.tars t) := by
  have hsplit := foldl_pair
      (fun acc (c : CSlot) => updA acc c.dest (insertIfAbsent newId))
      (fun acc (c : CSlot) => acc ++ [(⟨c.dest, c.fn⟩ : CSlot)])
      (lookupSig w src) w.tars []
  have hsigs : (copySignal w src newId).sigs
      = w.sigs ++ [(newId, lookupSig w src)] := by
    show w.sigs ++ [(newId,
        ((lookupSig w src).foldl (fun acc c =>
            (updA acc.1 c.dest (insertIfAbsent newId), acc.2 ++ [(⟨c.dest, c.fn⟩ : CSlot)]))
          (w.tars, [])).2)] = _
    rw [hsplit]
    rw [foldl_append_build]
    rfl
  have htars : (copySignal w src newId).tars
      = (lookupSig w src).foldl (fun acc c => updA acc c.dest (insertIfAbsent newId)) w.tars := by
    show ((lookupSig w src).foldl (fun acc c =>
        (updA acc.1 c.dest (insertIfAbsent newId), acc.2 ++ [(⟨c.dest, c.fn⟩ : CSlot)]))
      (w.tars, [])).1 = _
    rw [hsplit]
  have htfold : ∀ t, lookupA (copySignal w src newId).tars t
      = if t ∈ (lookupSig w src).map CSlot.dest
        then (lookupA w.tars t).map (insertIfAbsent newId)
        else lookupA w.tars t := by
    intro t
    rw [htars, ← List.foldl_map CSlot.dest (fun acc k => updA acc k (insertIfAbsent newId))]
    exact foldl_updA_idem (insertIfAbsent newId) (fun l => insertIfAbsent_idem newId l)
      ((lookupSig w src).map CSlot.dest) w.tars t
  refine ⟨?_, ?_, ?_, ?_⟩
  · unfold lookupSig
    rw [hsigs, lookupA_append_none _ _ _ hfreshS]
    simp [lookupA, lookupSig]
  · intro k hk
    rw [hsigs]
    cases hlk : lookupA w.sigs k with
    | none =>
        rw [lookupA_append_none _ _ _ hlk]
        show (if newId = k then some (lookupSig w src) else lookupA [] k) = none
        rw [if_neg (fun h : newId = k => hk h.symm)]
        rfl
    | some v => rw [lookupA_append_some _ _ _ _ hlk]
  · intro t hmem hsome
    rcases Option.isSome_iff_exists.mp hsome with ⟨v, hv⟩
    have hnot : newId ∉ v := hfreshT (t, v) (lookupA_mem w.tars t v hv)
    unfold lookupTar
    rw [htfold t, if_pos hmem, hv]
    simp [insertIfAbsent_of_notMem newId v hnot]
  · intro t hmem
    rw [htfold t, if_neg hmem]

/-- Witness for C9: copying signal 0 (three connections, two of them to
owner 1) as the new signal 5 clones all three connections and adds exactly
one back reference to each of the two owners. -/
theorem signal_copy_clones_and_backrefs_witness :
    lookupSig (copySignal w9 0 5) 5 = [⟨1, 10⟩, ⟨1, 11⟩, ⟨2, 12⟩]
    ∧ lookupTar (copySignal w9 0 5) 1 = [0, 5]
    ∧ lookupTar (copySignal w9 0 5) 2 = [0, 5] :=
  ⟨(signal_copy_clones_and_backrefs w9 0 5 (by decide) (by decide)).1,
   (signal_copy_clones_and_backrefs w9 0 5 (by decide) (by decide)).2.2.1 1
     (by decide) (by decide),
   (signal_copy_clones_and_backrefs w9 0 5 (by decide) (by decide)).2.2.1 2
     (by decide) (by decide)⟩

/-- Claim C10: copy-constructing a slot owner `old` as the fresh owner `newT`
appends, to each signal in `old`'s back-reference set, one duplicate per
connection targeting `old` (same callable, target `newT`), in registry order
and after the existing connections, which are left unchanged; signals outside
that set are untouched; the copy's back-reference set ends up equal to the
original's, and every other owner's set (including the original's) is
unchanged. -/
theorem owner_copy_duplicates_connections (w : World) (old newT : Nat)
    (_hne : newT ≠ old)
    (hnd : (lookupTar w old).Nodup)
    (hkey : lookupA w.tars newT = some []) :
    (∀ s ∈ lookupTar w old,
        lookupA (copyOwner w old newT).sigs s
          = (lookupA w.sigs s).map (fun regs => dupTargeting regs old newT))
    ∧ (∀ k, k ∉ lookupTar w old →
        lookupA (copyOwner w old newT).sigs k = lookupA w.sigs k)
    ∧ lookupTar (copyOwner w old newT) newT = lookupTar w old
    ∧ (∀ t, t ≠ newT → lookupA (copyOwner w old newT).tars t = lookupA w.tars t) := by
  have hsplit := foldl_pair
      (fun acc (s : Nat) => updA acc s (fun regs => dupTargeting regs old newT))
      (fun acc (s : Nat) => updA acc newT (insertIfAbsent s))
      (lookupTar w old) w.sigs w.tars
  have hsigs : (copyOwner w old newT).sigs
      = (lookupTar w old).foldl
          (fun acc s => updA acc s (fun regs => dupTargeting regs old newT)) w.sigs := by
    show ((lookupTar w old).foldl (fun acc s =>
        (updA acc.1 s (fun regs => dupTargeting regs old newT),
         updA acc.2 newT (insertIfAbsent s))) (w.sigs, w.tars)).1 = _
    rw [hsplit]
  have htars : (copyOwner w old newT).tars
      = (lookupTar w old).foldl (fun acc s => updA acc newT (insertIfAbsent s)) w.tars := by
    show ((lookupTar w old).foldl (fun acc s =>
        (updA acc.1 s (fun regs => dupTargeting regs old newT),
         updA acc.2 newT (insertIfAbsent s))) (w.sigs, w.tars)).2 = _
    rw [hsplit]
  have hfold : ∀ k, lookupA (copyOwner w old newT).sigs k
      = if k ∈ lookupTar w old
        then (lookupA w.sigs k).map (fun regs => dupTargeting regs old newT)
        else lookupA w.sigs k := by
    intro k
    rw [hsigs]
    exact foldl_updA_nodup _ (lookupTar w old) hnd w.sigs k
  refine ⟨?_, ?_, ?_, ?_⟩
  · intro s hs
    rw [hfold s, if_pos hs]
  · intro k hk
    rw [hfold k, if_neg hk]
  · unfold lookupTar
    rw [htars,
      foldl_updA_fixedkey (fun b s => insertIfAbsent s b) newT (lookupTar w old) w.tars newT,
      if_pos rfl, hkey]
    simp only [Option.map_some', Option.getD_some]
    exact foldl_insertIfAbsent (lookupTar w old) [] hnd (fun s _ h => (List.not_mem_nil s) h)
  · intro t ht
    rw [htars,
      foldl_updA_fixedkey (fun b s => insertIfAbsent s b) newT (lookupTar w old) w.tars t,
      if_neg ht]

/-- Witness for C10: copying owner 1 (two connections on signal 0, one on
signal 1) as the fresh owner 7 appends duplicates targeting 7 on both
signals, leaves the originals in place, gives owner 7 the back-reference set
of owner 1, and leaves owner 1's own set unchanged. -/
theorem owner_copy_duplicates_connections_witness :
    lookupA (copyOwner w10 1 7).sigs 0
      = some [⟨1, 10⟩, ⟨2, 11⟩, ⟨1, 12⟩, ⟨7, 10⟩, ⟨7, 12⟩]
    ∧ lookupA (copyOwner w10 1 7).sigs 1 = some [⟨1, 13⟩, ⟨7, 13⟩]
    ∧ lookupTar (copyOwner w10 1 7) 7 = [0, 1]
    ∧ lookupA (copyOwner w10 1 7).tars 1 = some [0, 1] :=
  ⟨(owner_copy_duplicates_connections w10 1 7 (by decide) (by decide) (by decide)).1 0
     (by decide),
   (owner_copy_duplicates_connections w10 1 7 (by decide) (by decide) (by decide)).1 1
     (by decide),
   (owner_copy_duplicates_connections w10 1 7 (by decide) (by decide) (by decide)).2.2.1,
   (owner_copy_duplicates_connections w10 1 7 (by decide) (by decide) (by decide)).2.2.2 1
     (by decide)⟩

/-! ### Claims C3, C6, C7: the coroutine side -/

/-- Claim C3 (awaiter bridge modelled from the spec, the implementation being
absent from src/): a task `t` awaiting a signal suspends into the waiter set,
and the signal's next `emit true` resumes every waiter suspended at that
moment — `t` included — with the payload `true`, in registration order,
detaching the whole batch. -/
theorem await_signal_resumes_with_payload (s : WaitState Bool) (t : Nat) :
    (emitSignal (awaitSignal s t) true).resumed
        = s.resumed ++ (s.waiters ++ [t]).map (fun x => (x, true))
    ∧ (t, true) ∈ (emitSignal (awaitSignal s t) true).resumed
    ∧ (emitSignal (awaitSignal s t) true).waiters = [] := by
  refine ⟨rfl, ?_, rfl⟩
  simp [emitSignal, awaitSignal]

/-- Claim C6, evaluated at the failing input (a task whose body raises 42):
`unhandled_exception` fires `promise_type_base::exception` once and
`final_suspend` still fires `promise_type_base::complete`, but the signals the
accessors `tasklet::exception()` / `tasklet::complete()` expose are the
shadowing members of `promise_type<R,T>`, which never fire — so the
observable failure outcome fires zero times instead of once, while `get()`
does re-raise the captured error. -/
theorem shadowed_outcome_signals_eval :
    taskExceptionLog (runFailingBody (freshPromise (0 : Nat)) (42 : Nat)) = []
    ∧ taskCompleteCount (runFailingBody (freshPromise (0 : Nat)) 42) = 0
    ∧ (runFailingBody (freshPromise (0 : Nat)) 42).baseExceptionLog = [42]
    ∧ (runFailingBody (freshPromise (0 : Nat)) 42).baseCompleteCount = 1
    ∧ promiseGet (runFailingBody (freshPromise (0 : Nat)) 42) = .error 42 :=
  ⟨rfl, rfl, rfl, rfl, rfl⟩

/-- Claim C7 counterexample: a task whose body holds one interior suspension
point is started once (suspending at that point, still unfinished); a second
`start()` on it raises no error — it resumes the coroutine instead — refuting
that `start()` errors whenever called a second time. -/
theorem second_start_no_error_cex :
    startT (some 2) = .ok (some 1) ∧ startT (some 1) = .ok (some 0) :=
  ⟨rfl, rfl⟩

/-- Claim C7 (amended): `start()` raises a synchronous logic error exactly
when called on an empty task (null handle) or on a finished task
(`coro.done()`); on any live unfinished task — freshly created or already
started and suspended — it raises nothing and resumes the coroutine. -/
theorem start_error_conditions (r : Nat) :
    startT none = .error "No coroutine to start"
    ∧ startT (some 0) = .error "Already run"
    ∧ startT (some (r + 1)) = .ok (some r) :=
  ⟨rfl, rfl, by simp [startT]⟩

end SigSlot
